import Mathlib

/-!
Verification of the Ownership Reconciliation Engine of the
R6-Celebration-Pack-Completion-Checker repository (`script_api.py`,
class `CelebrationPackChecker`).

Strings are modelled as `List Char`.  The Python character classes are
modelled on their ASCII fragment: `\w` is modelled as ASCII alphanumeric
or underscore, `\s` as the six ASCII whitespace characters, `str.upper`
as ASCII upper-casing.  Every concrete input used below is ASCII, where
this model agrees exactly with CPython's behaviour.

The Lookup Provider (`R6MarketplaceAPI.search_item`) is an external
collaborator; it is modelled as a function from a query string to a list
of candidates.  A provider failure is swallowed by `search_item` and
surfaces as the empty result list, exactly as in the source.
-/

abbrev Str := List Char

/-- Conversion from a Lean string literal to the `List Char` model. -/
def strL (s : String) : Str := s.data

/-- ASCII fragment of the regex class `\w` used in `re.sub(r'[^\w\s-]', ...)`:
alphanumeric or underscore. -/
def wordCh (c : Char) : Bool := c.isAlphanum || c == '_'

/-- ASCII fragment of the regex class `\s` and of `str.isspace`. -/
def spaceCh (c : Char) : Bool :=
  c == ' ' || c == '\t' || c == '\n' || c == '\r' || c == Char.ofNat 11 || c == Char.ofNat 12

/-- Characters kept by `re.sub(r'[^\w\s-]', '', name)`: word characters,
whitespace, and dash. -/
def keepCh (c : Char) : Bool := wordCh c || spaceCh c || c == '-'

/-- `re.sub(r'[^\w\s-]', '', s)`. -/
def stripSpecial (s : Str) : Str := s.filter keepCh

/-- Python `str.strip()` on the ASCII fragment: drop leading and trailing
whitespace. -/
def trimWs (s : Str) : Str := ((s.dropWhile spaceCh).reverse.dropWhile spaceCh).reverse

/-- `CelebrationPackChecker.normalize_name`:
`re.sub(r'[^\w\s-]', '', name).upper().strip()`. -/
def normalize_name (s : Str) : Str := trimWs ((stripSpecial s).map Char.toUpper)

/-- One step of Python `str.split()` (no separator), implemented as a right
fold: accumulate the current word and the list of words to the right. -/
def splitWsStep (c : Char) (acc : Str × List Str) : Str × List Str :=
  if spaceCh c then
    if acc.1 = [] then ([], acc.2) else ([], acc.1 :: acc.2)
  else (c :: acc.1, acc.2)

/-- Python `str.split()` with no separator: split on whitespace runs,
producing no empty words. -/
def splitWs (s : Str) : List Str :=
  let r := s.foldr splitWsStep ([], [])
  if r.1 = [] then r.2 else r.1 :: r.2

/-- Boolean prefix test between character lists. -/
def isPre : Str → Str → Bool
  | [], _ => true
  | _ :: _, [] => false
  | a :: as, b :: bs => a == b && isPre as bs

/-- Python substring containment `p in s`: `p` occurs at some start
position of `s`.  The empty string occurs in every string. -/
def occursIn (p s : Str) : Bool :=
  (List.range (s.length + 1)).any (fun i => isPre p (s.drop i))

/-- Python `' '.join(words[-2:])`: the last two words joined by a single
space (the whole list being at most those two words). -/
def joinLastTwo (ws : List Str) : Str :=
  match ws.reverse with
  | b :: a :: _ => a ++ ' ' :: b
  | [b] => b
  | [] => []

/-- `item_name` contains a character outside `\w`, whitespace and dash,
i.e. `re.search(r'[^\w\s-]', item_name)` succeeds. -/
def hasSpecial (s : Str) : Bool := s.any (fun c => !(keepCh c))

/-- `CelebrationPackChecker.get_search_terms`: the original name, then the
stripped variant when stripping changed the name, then (when the original
name has a special character) the last word of the stripped variant and,
when it has at least two words, the last two words joined by a space. -/
def get_search_terms (item_name : Str) : List Str :=
  let no_special := stripSpecial item_name
  let terms2 := if no_special ≠ item_name then [item_name] ++ [no_special] else [item_name]
  if hasSpecial item_name then
    let words := splitWs (stripSpecial item_name)
    let terms3 := if 0 < words.length then terms2 ++ [(words.getLast?).getD []] else terms2
    if 2 ≤ words.length then terms3 ++ [joinLastTwo words] else terms3
  else terms2

/-- A search candidate as consumed by `check_ownership`: only the `name`
and `is_owned` fields of the provider's result dictionaries are read. -/
structure SearchCandidate where
  name : Str
  is_owned : Bool
deriving DecidableEq

/-- Exact pass of `check_ownership`: scan the results in order and return
the ownership flag of the first candidate whose normalized name equals the
target. -/
def exactScan (target : Str) : List SearchCandidate → Option Bool
  | [] => none
  | c :: cs =>
    if normalize_name c.name = target then some c.is_owned else exactScan target cs

/-- Qualification test of the second pass of `check_ownership`: the target
is contained in the candidate's normalized name, the candidate is owned,
and every word of the target occurs among the candidate's words. -/
def looseQualifies (target : Str) (c : SearchCandidate) : Bool :=
  occursIn target (normalize_name c.name) && c.is_owned &&
    (splitWs target).all (fun w => (splitWs (normalize_name c.name)).any (fun v => v == w))

/-- Outcome of one term of the `check_ownership` loop: `none` means the
loop continues with the next term (empty results, or no exact match and no
qualifying loose match), `some b` means the function returns `b`. -/
def checkTermRes (target : Str) (results : List SearchCandidate) : Option Bool :=
  if results.isEmpty then none
  else
    match exactScan target results with
    | some b => some b
    | none => if results.any (looseQualifies target) then some true else none

/-- Term loop of `check_ownership`. -/
def goTerms (lookup : Str → List SearchCandidate) (target : Str) : List Str → Bool
  | [] => false
  | t :: ts =>
    match checkTermRes target (lookup t) with
    | some b => b
    | none => goTerms lookup target ts

/-- `CelebrationPackChecker.check_ownership`: iterate the generated search
terms; for each term with results run the exact pass, then the loose pass;
return `False` when every term is exhausted. -/
def check_ownership (lookup : Str → List SearchCandidate) (item_name : Str) : Bool :=
  goTerms lookup (normalize_name item_name) (get_search_terms item_name)

/-- Outcome of one resolver invocation as observed by the driver loop of
`find_missing_items`: a normal boolean verdict, an unexpected exception
(the `except Exception` arm), or a cancellation signal arriving at that
item (the `except KeyboardInterrupt` arm). -/
inductive Outcome where
  | verdict : Bool → Outcome
  | err : Outcome
  | cancel : Outcome
deriving DecidableEq

/-- Result of processing the items of a single category in
`find_missing_items`: the owned and missing name lists in catalog order,
the running global item counter after this category, and whether a
cancellation signal stopped the run inside this category. -/
structure CatResult where
  owned : List Str
  missing : List Str
  next : Nat
  cancelled : Bool
deriving DecidableEq

/-- Inner loop of `find_missing_items` over the items of one category.
`resolve k` is the outcome of resolving the item with global index `k`. -/
def runCat (resolve : Nat → Outcome) : Nat → List Str → CatResult
  | k, [] => ⟨[], [], k, false⟩
  | k, item :: rest =>
    match resolve k with
    | Outcome.cancel => ⟨[], [], k, true⟩
    | Outcome.err =>
      let r := runCat resolve (k + 1) rest
      ⟨r.owned, item :: r.missing, r.next, r.cancelled⟩
    | Outcome.verdict b =>
      let r := runCat resolve (k + 1) rest
      if b then ⟨item :: r.owned, r.missing, r.next, r.cancelled⟩
      else ⟨r.owned, item :: r.missing, r.next, r.cancelled⟩

/-- `CelebrationPackChecker.find_missing_items`: process the catalog
category by category, bucketing each item as owned or missing; an error
buckets the item as missing and continues; a cancellation signal returns
the state accumulated so far, leaving the remaining categories absent. -/
def find_missing_items (resolve : Nat → Outcome) :
    Nat → List (Str × List Str) → List (Str × List Str × List Str)
  | _, [] => []
  | k, (cat, items) :: rest =>
    let r := runCat resolve k items
    if r.cancelled then [(cat, r.owned, r.missing)]
    else (cat, r.owned, r.missing) :: find_missing_items resolve r.next rest

/-- Total number of items of a per-category name mapping. -/
def totalLen (d : List (Str × List Str)) : Nat := (d.map (fun e => e.2.length)).sum

/-- Flattened item sequence of a catalog, in processing order. -/
def flattenCat (catalog : List (Str × List Str)) : List Str :=
  (catalog.map (fun e => e.2)).flatten

/-- Number of items of a catalog. -/
def catLen (catalog : List (Str × List Str)) : Nat := (flattenCat catalog).length

/-- All classified items of a driver state, owned then missing inside each
category, categories in order. -/
def flatClassified (st : List (Str × List Str × List Str)) : List Str :=
  (st.map (fun e => e.2.1 ++ e.2.2)).flatten

/-- Owned plus missing counts of a driver state, summed over categories. -/
def sumCounts (st : List (Str × List Str × List Str)) : Nat :=
  (st.map (fun e => e.2.1.length + e.2.2.length)).sum

/-- Round a rational to the nearest integer, ties to the even integer,
mirroring Python `round` on exact values. -/
def rndHalfEven (q : ℚ) : ℤ :=
  if q - (⌊q⌋ : ℚ) = 1 / 2 then (if ⌊q⌋ % 2 = 0 then ⌊q⌋ else ⌊q⌋ + 1)
  else ⌊q + 1 / 2⌋

/-- Python `round(x, 2)` modelled on exact rationals. -/
def round2 (q : ℚ) : ℚ := (rndHalfEven (q * 100) : ℚ) / 100

/-- The summary part of the report of `generate_report`.  The `timestamp`
field of the source report is wall-clock time and is not modelled; the
two by-category fields are the `owned` and `missing` inputs unchanged. -/
structure Report where
  total_celebration_items : Nat
  total_owned : Nat
  total_missing : Nat
  completion_percentage : ℚ
deriving DecidableEq

/-- `CelebrationPackChecker.generate_report`: totals are item counts of
the catalog and of the owned and missing buckets; the completion
percentage is `round((total_owned / total_celebration) * 100, 2)` guarded
by `total_celebration > 0`, with Python floats modelled as exact
rationals. -/
def generate_report (celebration owned missing : List (Str × List Str)) : Report :=
  ⟨totalLen celebration, totalLen owned, totalLen missing,
    if 0 < totalLen celebration then
      round2 (((totalLen owned : ℚ) / (totalLen celebration : ℚ)) * 100)
    else 0⟩

/-- The separator used by `group_items_by_base_name`. -/
def sepStr : Str := strL " - "

/-- Start index of the last occurrence of the separator in a name, when
one exists: the largest position where the separator is a prefix of the
remaining suffix. -/
def lastOcc (s : Str) : Option Nat :=
  ((List.range (s.length + 1)).filter (fun i => isPre sepStr (s.drop i))).getLast?

/-- Base name of an item, per `group_items_by_base_name`: everything
before the last occurrence of `" - "` when the name contains the
separator (`item.rsplit(' - ', 1)[0]`), otherwise the name itself. -/
def baseName (s : Str) : Str :=
  if occursIn sepStr s then
    match lastOcc s with
    | some i => s.take i
    | none => s
  else s

/-- Insert one item under its key, appending to the first entry with that
key or appending a fresh entry at the end; this is the `defaultdict`
append of `group_items_by_base_name` with dict insertion order. -/
def addToGroup : List (Str × List Str) → Str → Str → List (Str × List Str)
  | [], k, v => [(k, [v])]
  | (k2, vs) :: rest, k, v =>
    if k2 = k then (k2, vs ++ [v]) :: rest else (k2, vs) :: addToGroup rest k v

/-- `CelebrationPackChecker.group_items_by_base_name`: group the names by
base name, keys in first-seen order, variants in input order. -/
def group_items_by_base_name (items : List Str) : List (Str × List Str) :=
  items.foldl (fun g it => addToGroup g (baseName it) it) []

/-! ### Spec-side definitions

The following definitions follow the wording of the specification, for
comparison with the source-derived definitions above. -/

/-- Modelled from the spec wording of §4.1: a character that is
"alphanumeric, whitespace, or a dash" (note: no underscore). -/
def specKeepCh (c : Char) : Bool := c.isAlphanum || spaceCh c || c == '-'

/-- Normalization as worded by the spec: remove every character that is
not alphanumeric, whitespace, or a dash; upper-case; trim. -/
def specNormalize (s : Str) : Str := trimWs ((s.filter specKeepCh).map Char.toUpper)

/-- The amended keep class: alphanumeric, underscore, whitespace, or a
dash (the class the code actually uses, `\w` keeping the underscore). -/
def specKeepChW (c : Char) : Bool := c.isAlphanum || c == '_' || spaceCh c || c == '-'

/-- Normalization as worded by the amended claim: remove every character
that is not alphanumeric, underscore, whitespace, or a dash; upper-case;
trim leading and trailing whitespace. -/
def specNormalizeW (s : Str) : Str := trimWs ((s.filter specKeepChW).map Char.toUpper)

/-- Term generation as worded by the claim, parameterized by the class of
kept characters: the original name first; the stripped variant when
stripping changes the name; when the original name contains a character
outside the class, the last word of the stripped variant (when it has
one), then the last two words joined by a single space (when it has at
least two). -/
def specGenTermsBy (keep : Char → Bool) (s : Str) : List Str :=
  ([s] ++ (if s.filter keep ≠ s then [s.filter keep] else []))
    ++ (if s.any (fun c => !(keep c)) then
          (if 0 < (splitWs (s.filter keep)).length
            then [((splitWs (s.filter keep)).getLast?).getD []] else [])
          ++ (if 2 ≤ (splitWs (s.filter keep)).length
            then [joinLastTwo (splitWs (s.filter keep))] else [])
        else [])

/-- Term generation as worded by the claim (alphanumeric class, no
underscore). -/
def specGenTerms (s : Str) : List Str := specGenTermsBy specKeepCh s

/-- Term generation as worded by the amended claim (word class keeping
the underscore). -/
def specGenTermsW (s : Str) : List Str := specGenTermsBy specKeepChW s

/-- Qualification in the second pass as worded by the claim: the target
is a NON-EMPTY substring of the candidate's normalized name, the
candidate is owned, and every word of the target occurs among the words
of the candidate's normalized name. -/
def specQualB (target : Str) (c : SearchCandidate) : Bool :=
  !(target.isEmpty) && occursIn target (normalize_name c.name) && c.is_owned &&
    (splitWs target).all (fun w => (splitWs (normalize_name c.name)).any (fun v => v == w))

/-- Base names of a list of items in first-seen order, without
duplicates. -/
def specKeys (items : List Str) : List Str :=
  (items.map baseName).foldl (fun acc k => if k ∈ acc then acc else acc ++ [k]) []

/-- Grouping as worded by the spec: for each base name in first-seen
order, the sub-list of items sharing that base name, in input order. -/
def specGroup (items : List Str) : List (Str × List Str) :=
  (specKeys items).map (fun k => (k, items.filter (fun it => baseName it == k)))

/-- Completion percentage as worded by the spec:
`round(100 * totalOwned / totalCatalog, 2)`, defined as `0` when the
catalog is empty. -/
def specCompletion (ownedCount totalCount : Nat) : ℚ :=
  if totalCount = 0 then 0
  else round2 ((100 * (ownedCount : ℚ)) / (totalCount : ℚ))

/-! ### Concrete fixtures used by examples, witnesses and counterexamples -/

/-- The apostrophe character. -/
def apos : Char := Char.ofNat 39

/-- The catalog item name of the end-to-end scenario of §8. -/
def acesHat : Str := ['A', 'c', 'e', apos, 's', ' ', 'H', 'a', 't']

/-- Lookup Provider of the end-to-end scenario: nothing for the original
name, a single owned candidate named "ACES HAT" for the stripped
variant, nothing otherwise. -/
def lookupC5 (t : Str) : List SearchCandidate :=
  if t = acesHat then []
  else if t = strL "Aces Hat" then [⟨strL "ACES HAT", true⟩]
  else []

/-- Lookup Provider for the exact-match-precedence scenario: an exact
candidate that is not owned, followed by an owned candidate that would
qualify under the loose word-subset rule. -/
def lookupW1 (t : Str) : List SearchCandidate :=
  if t = strL "ITEM" then [⟨strL "ITEM", false⟩, ⟨strL "ITEM PRO", true⟩]
  else []

/-- Lookup Provider with two exact candidates whose ownership flags
differ: result order decides. -/
def lookupW10 (t : Str) : List SearchCandidate :=
  if t = strL "X" then [⟨strL "X", false⟩, ⟨strL "X", true⟩]
  else []

/-- An item name consisting of a single removed character: its normalized
form is empty. -/
def exclam : Str := ['!']

/-- Lookup Provider for the empty-target scenario: one owned candidate
whose name shares no word with the (empty) target. -/
def lookupC2 (t : Str) : List SearchCandidate :=
  if t = exclam then [⟨['A'], true⟩]
  else []

/-- Resolver outcomes for the cancellation scenario: the first three
items resolve to owned, the signal arrives at the fourth item. -/
def resolveW6 (i : Nat) : Outcome :=
  if i < 3 then Outcome.verdict true else Outcome.cancel

/-- A five-item catalog over two categories. -/
def catalogW6 : List (Str × List Str) :=
  [(strL "HEADGEAR", [strL "A", strL "B"]),
   (strL "UNIFORMS", [strL "C", strL "D", strL "E"])]

/-- Resolver outcomes for the error scenario: the item with global index
1 raises, everything else resolves to owned. -/
def resolveW7 (i : Nat) : Outcome :=
  if i = 1 then Outcome.err else Outcome.verdict true

/-- A three-item catalog over two categories for the error scenario. -/
def catalogW7pre : List (Str × List Str) := [(strL "HEADGEAR", [strL "A"])]

/-- Items of the second category of the error scenario. -/
def catalogW7items : List Str := [strL "B", strL "C"]

/-- Remaining categories of the error scenario. -/
def catalogW7post : List (Str × List Str) := []

-- Sanity examples for the embedding, checked by evaluation.
example : normalize_name (strL "  Black Ice!  ") = strL "BLACK ICE" := by decide

example : get_search_terms (strL "Ace! Hat") =
    [strL "Ace! Hat", strL "Ace Hat", strL "Hat", strL "Ace Hat"] := by decide

example : baseName (strL "A - B - C") = strL "A - B" := by decide

example : group_items_by_base_name
    [strL "REDHAMMER STANDARD - HEADGEAR", strL "REDHAMMER STANDARD - UNIFORM", strL "LONE WOLF"] =
    [(strL "REDHAMMER STANDARD",
      [strL "REDHAMMER STANDARD - HEADGEAR", strL "REDHAMMER STANDARD - UNIFORM"]),
     (strL "LONE WOLF", [strL "LONE WOLF"])] := by decide

/-! ### Helper lemmas about the Match Resolver -/

/-- Terms whose outcome is `none` are skipped by the term loop. -/
theorem goTerms_skip (lookup : Str → List SearchCandidate) (target : Str) :
    ∀ (ts1 rest : List Str), (∀ u ∈ ts1, checkTermRes target (lookup u) = none) →
      goTerms lookup target (ts1 ++ rest) = goTerms lookup target rest
  | [], _, _ => rfl
  | t :: ts1, rest, h => by
    have ht : checkTermRes target (lookup t) = none := h t (by simp)
    have ih := goTerms_skip lookup target ts1 rest (fun u hu => h u (by simp [hu]))
    simp [goTerms, ht, ih]

/-- When the exact pass returns a value, the term's outcome is that
value. -/
theorem checkTermRes_exact (target : Str) (results : List SearchCandidate) (b : Bool)
    (h : exactScan target results = some b) : checkTermRes target results = some b := by
  cases results with
  | nil => simp [exactScan] at h
  | cons c cs => simp [checkTermRes, h]

/-- The exact pass returns the flag of the first exact candidate in
result order. -/
theorem exactScan_eq_find (target : Str) :
    ∀ l : List SearchCandidate,
      exactScan target l =
        (l.find? (fun d => normalize_name d.name == target)).map (fun d => d.is_owned)
  | [] => rfl
  | c :: cs => by
    by_cases hc : normalize_name c.name = target
    · simp [exactScan, hc, List.find?_cons_of_pos]
    · have hb : (normalize_name c.name == target) = false := by simp [hc]
      simp [exactScan, hc, List.find?_cons_of_neg, hb, exactScan_eq_find target cs]

/-- When some exact candidate exists, the exact pass returns the flag of
one of them. -/
theorem exact_exists_first (target : Str) :
    ∀ l : List SearchCandidate, (∃ c ∈ l, normalize_name c.name = target) →
      ∃ c ∈ l, normalize_name c.name = target ∧ exactScan target l = some c.is_owned
  | [], h => by simp at h
  | c :: cs, h => by
    by_cases hc : normalize_name c.name = target
    · exact ⟨c, by simp, hc, by simp [exactScan, hc]⟩
    · obtain ⟨d, hd, hdt⟩ := h
      rcases List.mem_cons.mp hd with rfl | hdcs
      · exact absurd hdt hc
      · obtain ⟨e, he, het, hscan⟩ := exact_exists_first target cs ⟨d, hdcs, hdt⟩
        exact ⟨e, List.mem_cons_of_mem _ he, het, by simp [exactScan, hc, hscan]⟩

/-- With no exact match present, a term's outcome is decided by the
loose pass alone. -/
theorem checkTermRes_of_no_exact (target : Str) (results : List SearchCandidate)
    (h : exactScan target results = none) :
    checkTermRes target results =
      (if results.any (looseQualifies target) then some true else none) := by
  cases results with
  | nil => simp [checkTermRes]
  | cons c cs => simp [checkTermRes, h]

/-! ### Claim theorems about the Match Resolver -/

/-- C1: for every catalog item and every search term that the resolution
loop reaches (all earlier terms yielded no decision), if the term's
results contain a candidate whose normalized name equals the normalized
item name, then resolution terminates at that term's exact pass and
returns that candidate's ownership flag — regardless of any other owned
candidate in the same results that would qualify under the loose
word-subset rule. -/
theorem exact_match_authoritative (lookup : Str → List SearchCandidate) (item_name : Str)
    (ts1 ts2 : List Str) (t : Str)
    (hsplit : get_search_terms item_name = ts1 ++ t :: ts2)
    (hskip : ∀ u ∈ ts1, checkTermRes (normalize_name item_name) (lookup u) = none)
    (hex : ∃ c ∈ lookup t, normalize_name c.name = normalize_name item_name) :
    ∃ c ∈ lookup t, normalize_name c.name = normalize_name item_name ∧
      check_ownership lookup item_name = c.is_owned := by
  obtain ⟨c, hc, hct, hscan⟩ := exact_exists_first (normalize_name item_name) (lookup t) hex
  refine ⟨c, hc, hct, ?_⟩
  unfold check_ownership
  rw [hsplit, goTerms_skip lookup (normalize_name item_name) ts1 (t :: ts2) hskip]
  simp [goTerms, checkTermRes_exact _ _ _ hscan]

/-- Witness for C1, on the spec's exact-match-precedence scenario: the
results for the single term "ITEM" hold an exact candidate with
`is_owned = false` and a different owned candidate ("ITEM PRO") that
qualifies under the loose rule, and resolution returns `Missing`. -/
theorem exact_match_authoritative_witness :
    check_ownership lookupW1 (strL "ITEM") = false ∧
      ∃ c ∈ lookupW1 (strL "ITEM"),
        normalize_name c.name = normalize_name (strL "ITEM") ∧
          check_ownership lookupW1 (strL "ITEM") = c.is_owned :=
  ⟨by decide,
   exact_match_authoritative lookupW1 (strL "ITEM") [] [] (strL "ITEM")
     (by decide) (by intro u hu; simp at hu)
     ⟨⟨strL "ITEM", false⟩, by decide, by decide⟩⟩

/-- C10: when the results of a reached term contain candidates whose
normalized names equal the normalized item name, resolution returns the
ownership flag of the earliest such candidate in the provider's result
order (here expressed through `List.find?`). -/
theorem exact_tie_first_result (lookup : Str → List SearchCandidate) (item_name : Str)
    (ts1 ts2 : List Str) (t : Str) (c : SearchCandidate)
    (hsplit : get_search_terms item_name = ts1 ++ t :: ts2)
    (hskip : ∀ u ∈ ts1, checkTermRes (normalize_name item_name) (lookup u) = none)
    (hfind : (lookup t).find? (fun d => normalize_name d.name == normalize_name item_name) =
      some c) :
    check_ownership lookup item_name = c.is_owned := by
  have hscan : exactScan (normalize_name item_name) (lookup t) = some c.is_owned := by
    rw [exactScan_eq_find, hfind]; rfl
  unfold check_ownership
  rw [hsplit, goTerms_skip lookup (normalize_name item_name) ts1 (t :: ts2) hskip]
  simp [goTerms, checkTermRes_exact _ _ _ hscan]

/-- Witness for C10: two exact candidates with differing flags, the
not-owned one first; resolution returns `Missing`. -/
theorem exact_tie_first_result_witness :
    check_ownership lookupW10 (strL "X") = false :=
  exact_tie_first_result lookupW10 (strL "X") [] [] (strL "X") ⟨strL "X", false⟩
    (by decide) (by intro u hu; simp at hu) (by decide)

/-- C5: a term yielding zero candidates is skipped and the loop continues
with the next generated term; concretely, for the item "Ace's Hat" with a
provider returning nothing for "Ace's Hat" and a single owned candidate
"ACES HAT" for "Aces Hat", resolution returns `Owned`. -/
theorem empty_results_skip_and_fallback :
    (∀ (lookup : Str → List SearchCandidate) (target t : Str) (ts : List Str),
        lookup t = [] → goTerms lookup target (t :: ts) = goTerms lookup target ts) ∧
      check_ownership lookupC5 acesHat = true := by
  constructor
  · intro lookup target t ts h
    simp [goTerms, checkTermRes, h]
  · decide

/-- Witness for C5: the skip step applied to the scenario's first term. -/
theorem empty_results_skip_and_fallback_witness :
    goTerms lookupC5 (normalize_name acesHat) (acesHat :: [strL "Aces Hat"]) =
      goTerms lookupC5 (normalize_name acesHat) [strL "Aces Hat"] :=
  empty_results_skip_and_fallback.1 lookupC5 (normalize_name acesHat) acesHat
    [strL "Aces Hat"] (by decide)

/-- Counterexample for C2 as stated: for the item "!" (normalized name
empty) the single owned candidate "A" satisfies none of the claim's
qualification conditions — the target is not a NON-EMPTY substring — and
the exact pass is empty, yet resolution returns `Owned`, because Python's
containment test accepts the empty string. -/
theorem loose_pass_nonempty_cex :
    check_ownership lookupC2 exclam = true ∧
      exactScan (normalize_name exclam) (lookupC2 exclam) = none ∧
      (lookupC2 exclam).any (specQualB (normalize_name exclam)) = false := by
  decide

/-- C2 (amended): in the loose pass, reached for a term only when that
term produced no exact match, the term returns `Owned` iff some candidate
satisfies: the normalized item name is a substring of the candidate's
normalized name (the empty name counting as a substring of every name),
the candidate is owned, and every word of the normalized item name occurs
among the candidate's words.  In particular "RED" does not match
"INFRARED SCOPE" and "BLACK ICE" matches an owned
"BLACK ICE - R4-C". -/
theorem loose_pass_characterization :
    (∀ (target : Str) (results : List SearchCandidate),
        exactScan target results = none →
          (checkTermRes target results = some true ↔
            ∃ c ∈ results,
              occursIn target (normalize_name c.name) = true ∧ c.is_owned = true ∧
                (splitWs target).all
                  (fun w => (splitWs (normalize_name c.name)).any (fun v => v == w)) = true)) ∧
      checkTermRes (normalize_name (strL "RED"))
        [⟨strL "INFRARED SCOPE", true⟩] = none ∧
      checkTermRes (normalize_name (strL "BLACK ICE"))
        [⟨strL "BLACK ICE - R4-C", true⟩] = some true := by
  refine ⟨?_, by decide, by decide⟩
  intro target results h
  rw [checkTermRes_of_no_exact target results h]
  by_cases ha : results.any (looseQualifies target) = true
  · rw [if_pos ha]
    constructor
    · intro _
      obtain ⟨c, hc, hq⟩ := List.any_eq_true.mp ha
      simp only [looseQualifies, Bool.and_eq_true] at hq
      exact ⟨c, hc, hq.1.1, hq.1.2, hq.2⟩
    · intro _; rfl
  · rw [if_neg ha]
    constructor
    · intro hcon; exact absurd hcon (by simp)
    · rintro ⟨c, hc, h1, h2, h3⟩
      exact absurd (List.any_eq_true.mpr ⟨c, hc, by simp [looseQualifies, h1, h2, h3]⟩) ha

/-- Witness for C2: the characterization instantiated at the scenario of
the word-subset rule. -/
theorem loose_pass_characterization_witness :
    checkTermRes (normalize_name (strL "BLACK ICE"))
        [⟨strL "BLACK ICE - R4-C", true⟩] = some true ↔
      ∃ c ∈ [(⟨strL "BLACK ICE - R4-C", true⟩ : SearchCandidate)],
        occursIn (normalize_name (strL "BLACK ICE")) (normalize_name c.name) = true ∧
          c.is_owned = true ∧
          (splitWs (normalize_name (strL "BLACK ICE"))).all
            (fun w => (splitWs (normalize_name c.name)).any (fun v => v == w)) = true :=
  loose_pass_characterization.1 (normalize_name (strL "BLACK ICE"))
    [⟨strL "BLACK ICE - R4-C", true⟩] (by decide)

/-! ### Claim theorems about normalization and term generation -/

/-- Counterexample for C3 as stated: Python's `\w` keeps the underscore,
which is not alphanumeric, so normalization differs from the claim's
description on the one-character name "_". -/
theorem normalize_spec_cex : normalize_name ['_'] ≠ specNormalize ['_'] := by decide

/-- C3 (amended): normalization removes every character that is not
alphanumeric, an underscore, whitespace, or a dash, upper-cases the
result, and trims leading and trailing whitespace; it is a total
function. -/
theorem normalize_characterization : ∀ s : Str, normalize_name s = specNormalizeW s := by
  intro s
  have hfun : keepCh = specKeepChW := funext fun c => by
    simp [keepCh, wordCh, specKeepChW, Bool.or_assoc]
  simp [normalize_name, specNormalizeW, stripSpecial, hfun]

/-- Counterexample for C4 as stated: on the name "a_b" the code generates
the single term ["a_b"] (the underscore is a word character, so stripping
changes nothing), while the claim's alphanumeric reading would strip the
underscore and generate fallback terms. -/
theorem terms_spec_cex : get_search_terms (strL "a_b") ≠ specGenTerms (strL "a_b") := by
  decide

/-- C4 (amended): term generation yields the original name first, the
stripped variant (with respect to the class alphanumeric, underscore,
whitespace, dash) when stripping changes the name, then — when the
original name contains a character outside that class — the last word of
the stripped variant and, when there are at least two words, the last
two words joined by a single space; the sequence has length between 1
and 4. -/
theorem terms_characterization :
    ∀ s : Str,
      get_search_terms s = specGenTermsW s ∧
        (get_search_terms s).head? = some s ∧
        1 ≤ (get_search_terms s).length ∧ (get_search_terms s).length ≤ 4 := by
  intro s
  have hfun : keepCh = specKeepChW := funext fun c => by
    simp [keepCh, wordCh, specKeepChW, Bool.or_assoc]
  have heq : get_search_terms s = specGenTermsW s := by
    unfold get_search_terms specGenTermsW specGenTermsBy hasSpecial stripSpecial
    rw [hfun]
    by_cases h1 : s.filter specKeepChW ≠ s <;>
      by_cases h2 : s.any (fun c => !(specKeepChW c)) = true <;>
        by_cases h3 : 0 < (splitWs (s.filter specKeepChW)).length <;>
          by_cases h4 : 2 ≤ (splitWs (s.filter specKeepChW)).length <;>
            simp [h1, h2, h3, h4]
  have hhead : (get_search_terms s).head? = some s := by
    simp only [get_search_terms]
    split_ifs <;> simp
  have hlen : 1 ≤ (get_search_terms s).length ∧ (get_search_terms s).length ≤ 4 := by
    simp only [get_search_terms]
    split_ifs <;> simp [List.length_append]
  exact ⟨heq, hhead, hlen.1, hlen.2⟩

/-! ### Helper lemmas about the Reconciliation Driver -/

/-- Number of items of a catalog whose first category is given. -/
theorem catLen_cons (cat : Str) (items : List Str) (rest : List (Str × List Str)) :
    catLen ((cat, items) :: rest) = items.length + catLen rest := by
  simp [catLen, flattenCat]

/-- The owned-plus-missing count of a driver state is the length of its
flattened classified sequence. -/
theorem sumCounts_eq_length (st : List (Str × List Str × List Str)) :
    sumCounts st = (flatClassified st).length := by
  induction st with
  | nil => rfl
  | cons e st ih =>
    simp only [sumCounts, flatClassified, List.map_cons, List.sum_cons,
      List.flatten_cons, List.length_append] at *
    omega

/-- When no cancellation signal occurs inside a category, its run
completes, advances the counter by the item count, and classifies a
permutation of its items. -/
theorem runCat_nocancel (resolve : Nat → Outcome) :
    ∀ (items : List Str) (k : Nat),
      (∀ i, i < items.length → resolve (k + i) ≠ Outcome.cancel) →
      (runCat resolve k items).cancelled = false ∧
        (runCat resolve k items).next = k + items.length ∧
        ((runCat resolve k items).owned ++ (runCat resolve k items).missing).Perm items
  | [], k, _ => by simp [runCat]
  | item :: rest, k, h => by
    have h0 : resolve k ≠ Outcome.cancel := by simpa using h 0 (by simp)
    have hrec : ∀ i, i < rest.length → resolve (k + 1 + i) ≠ Outcome.cancel := fun i hi => by
      have heq : k + 1 + i = k + (i + 1) := by omega
      rw [heq]
      exact h (i + 1) (by simpa using Nat.succ_lt_succ hi)
    obtain ⟨hc, hn, hp⟩ := runCat_nocancel resolve rest (k + 1) hrec
    cases hres : resolve k with
    | cancel => exact absurd hres h0
    | err =>
      simp only [runCat, hres]
      exact ⟨hc, by rw [hn]; simp [List.length_cons]; omega,
        List.perm_middle.trans (hp.cons item)⟩
    | verdict b =>
      cases b with
      | true =>
        simp only [runCat, hres, if_pos]
        exact ⟨hc, by rw [hn]; simp [List.length_cons]; omega,
          by simpa using hp.cons item⟩
      | false =>
        simp only [runCat, hres, Bool.false_eq_true, if_neg, not_false_eq_true]
        exact ⟨hc, by rw [hn]; simp [List.length_cons]; omega,
          List.perm_middle.trans (hp.cons item)⟩

/-- When a cancellation signal arrives at offset `j` inside a category,
the category's run stops cancelled, having classified a permutation of
the first `j` items. -/
theorem runCat_cancel (resolve : Nat → Outcome) :
    ∀ (items : List Str) (k j : Nat), j < items.length →
      (∀ i, i < j → resolve (k + i) ≠ Outcome.cancel) →
      resolve (k + j) = Outcome.cancel →
      (runCat resolve k items).cancelled = true ∧
        ((runCat resolve k items).owned ++ (runCat resolve k items).missing).Perm
          (items.take j)
  | [], _, j, hj, _, _ => by simp at hj
  | item :: rest, k, 0, _, _, hcan => by
    have h0 : resolve k = Outcome.cancel := by simpa using hcan
    refine ⟨by simp [runCat, h0], ?_⟩
    simp [runCat, h0]
  | item :: rest, k, j + 1, hj, hb, hcan => by
    have h0 : resolve k ≠ Outcome.cancel := by simpa using hb 0 (by omega)
    have hb2 : ∀ i, i < j → resolve (k + 1 + i) ≠ Outcome.cancel := fun i hi => by
      have heq : k + 1 + i = k + (i + 1) := by omega
      rw [heq]
      exact hb (i + 1) (by omega)
    have hcan2 : resolve (k + 1 + j) = Outcome.cancel := by
      have heq : k + 1 + j = k + (j + 1) := by omega
      rw [heq]
      exact hcan
    have hj2 : j < rest.length := by simpa using Nat.lt_of_succ_lt_succ hj
    obtain ⟨hc, hp⟩ := runCat_cancel resolve rest (k + 1) j hj2 hb2 hcan2
    cases hres : resolve k with
    | cancel => exact absurd hres h0
    | err =>
      simp only [runCat, hres, List.take_succ_cons]
      exact ⟨hc, List.perm_middle.trans (hp.cons item)⟩
    | verdict b =>
      cases b with
      | true =>
        simp only [runCat, hres, if_pos, List.take_succ_cons]
        exact ⟨hc, by simpa using hp.cons item⟩
      | false =>
        simp only [runCat, hres, Bool.false_eq_true, if_neg, not_false_eq_true,
          List.take_succ_cons]
        exact ⟨hc, List.perm_middle.trans (hp.cons item)⟩

/-- Driver-level cancellation: when the signal arrives at global item
index `j`, the returned state classifies a permutation of the first `j`
items of the flattened catalog. -/
theorem driver_cancel_perm (resolve : Nat → Outcome) :
    ∀ (catalog : List (Str × List Str)) (c j : Nat), j < catLen catalog →
      (∀ i, i < j → resolve (c + i) ≠ Outcome.cancel) →
      resolve (c + j) = Outcome.cancel →
      (flatClassified (find_missing_items resolve c catalog)).Perm
        ((flattenCat catalog).take j)
  | [], _, j, hj, _, _ => by simp [catLen, flattenCat] at hj
  | (cat, items) :: rest, c, j, hj, hb, hcan => by
    by_cases hlt : j < items.length
    · obtain ⟨hc, hp⟩ := runCat_cancel resolve items c j hlt hb hcan
      simp only [find_missing_items, hc, if_pos]
      have hRHS : (flattenCat ((cat, items) :: rest)).take j = items.take j := by
        simp only [flattenCat, List.map_cons, List.flatten_cons,
          List.take_append_eq_append_take, Nat.sub_eq_zero_of_le (le_of_lt hlt),
          List.take_zero, List.append_nil]
      rw [hRHS]
      simpa [flatClassified] using hp
    · have hge : items.length ≤ j := le_of_not_lt hlt
      have hints : ∀ i, i < items.length → resolve (c + i) ≠ Outcome.cancel :=
        fun i hi => hb i (lt_of_lt_of_le hi hge)
      obtain ⟨hc, hn, hp⟩ := runCat_nocancel resolve items c hints
      rw [catLen_cons] at hj
      have hb2 : ∀ i, i < j - items.length → resolve (c + items.length + i) ≠ Outcome.cancel :=
        fun i hi => by
          have heq : c + items.length + i = c + (items.length + i) := by omega
          rw [heq]
          exact hb (items.length + i) (by omega)
      have hcan2 : resolve (c + items.length + (j - items.length)) = Outcome.cancel := by
        have heq : c + items.length + (j - items.length) = c + j := by omega
        rw [heq]
        exact hcan
      have ih := driver_cancel_perm resolve rest (c + items.length) (j - items.length)
        (by omega) hb2 hcan2
      simp only [find_missing_items, hc, Bool.false_eq_true, if_neg, not_false_eq_true, hn]
      have hRHS : (flattenCat ((cat, items) :: rest)).take j =
          items ++ (flattenCat rest).take (j - items.length) := by
        simp only [flattenCat, List.map_cons, List.flatten_cons,
          List.take_append_eq_append_take]
        rw [List.take_of_length_le hge]
      rw [hRHS]
      simpa [flatClassified] using hp.append ih

/-- When no cancellation signal occurs at all, the driver state splits
along a split of the catalog, with the counter advanced by the item count
of the first part. -/
theorem driver_append (resolve : Nat → Outcome) (hnc : ∀ i, resolve i ≠ Outcome.cancel) :
    ∀ (pre rest : List (Str × List Str)) (c : Nat),
      find_missing_items resolve c (pre ++ rest) =
        find_missing_items resolve c pre ++ find_missing_items resolve (c + catLen pre) rest
  | [], rest, c => by simp [find_missing_items, catLen, flattenCat]
  | (cat, items) :: pre, rest, c => by
    obtain ⟨hc, hn, _⟩ := runCat_nocancel resolve items c (fun i _ => hnc (c + i))
    have ih := driver_append resolve hnc pre rest (c + items.length)
    have heq : c + items.length + catLen pre = c + (items.length + catLen pre) := by omega
    rw [heq] at ih
    simp only [List.cons_append, find_missing_items, hc, Bool.false_eq_true, if_neg,
      not_false_eq_true, hn, catLen_cons]
    exact congrArg _ ih

/-- When no cancellation signal occurs, the driver maps a category with
items to its run result and continues. -/
theorem driver_entry (resolve : Nat → Outcome) (hnc : ∀ i, resolve i ≠ Outcome.cancel)
    (cat : Str) (items : List Str) (post : List (Str × List Str)) (c : Nat) :
    find_missing_items resolve c ((cat, items) :: post) =
      (cat, (runCat resolve c items).owned, (runCat resolve c items).missing) ::
        find_missing_items resolve (c + items.length) post := by
  obtain ⟨hc, hn, _⟩ := runCat_nocancel resolve items c (fun i _ => hnc (c + i))
  simp [find_missing_items, hc, hn]

/-- Without cancellation, every category of the catalog appears in the
driver state. -/
theorem driver_length (resolve : Nat → Outcome) (hnc : ∀ i, resolve i ≠ Outcome.cancel) :
    ∀ (catalog : List (Str × List Str)) (c : Nat),
      (find_missing_items resolve c catalog).length = catalog.length
  | [], _ => rfl
  | (cat, items) :: rest, c => by
    rw [driver_entry resolve hnc cat items rest c]
    simp [driver_length resolve hnc rest (c + items.length)]

/-- Without cancellation, every item of the catalog is classified. -/
theorem driver_counts (resolve : Nat → Outcome) (hnc : ∀ i, resolve i ≠ Outcome.cancel) :
    ∀ (catalog : List (Str × List Str)) (c : Nat),
      sumCounts (find_missing_items resolve c catalog) = catLen catalog
  | [], _ => rfl
  | (cat, items) :: rest, c => by
    obtain ⟨_, _, hp⟩ := runCat_nocancel resolve items c (fun i _ => hnc (c + i))
    rw [driver_entry resolve hnc cat items rest c]
    have hlen : (runCat resolve c items).owned.length +
        (runCat resolve c items).missing.length = items.length := by
      have := hp.length_eq
      simpa [List.length_append] using this
    simp only [sumCounts, List.map_cons, List.sum_cons, catLen_cons]
    rw [hlen]
    have ih := driver_counts resolve hnc rest (c + items.length)
    simp only [sumCounts] at ih
    rw [ih]

/-- An item whose resolution errors is recorded in the missing list of
its category's run. -/
theorem runCat_err_mem (resolve : Nat → Outcome) :
    ∀ (items : List Str) (k p : Nat) (hp : p < items.length),
      (∀ i, i < items.length → resolve (k + i) ≠ Outcome.cancel) →
      resolve (k + p) = Outcome.err →
      items.get ⟨p, hp⟩ ∈ (runCat resolve k items).missing
  | [], _, p, hp, _, _ => by simp at hp
  | item :: rest, k, 0, _, _, he => by
    have h0 : resolve k = Outcome.err := by simpa using he
    simp [runCat, h0]
  | item :: rest, k, p + 1, hp, hnc, he => by
    have h0 : resolve k ≠ Outcome.cancel := by simpa using hnc 0 (by omega)
    have hnc2 : ∀ i, i < rest.length → resolve (k + 1 + i) ≠ Outcome.cancel := fun i hi => by
      have heq : k + 1 + i = k + (i + 1) := by omega
      rw [heq]
      exact hnc (i + 1) (by simpa using Nat.succ_lt_succ hi)
    have he2 : resolve (k + 1 + p) = Outcome.err := by
      have heq : k + 1 + p = k + (p + 1) := by omega
      rw [heq]
      exact he
    have hp2 : p < rest.length := by simpa using Nat.lt_of_succ_lt_succ hp
    have ih := runCat_err_mem resolve rest (k + 1) p hp2 hnc2 he2
    cases hres : resolve k with
    | cancel => exact absurd hres h0
    | err => simpa [runCat, hres] using List.mem_cons_of_mem item ih
    | verdict b =>
      cases b with
      | true => simpa [runCat, hres] using ih
      | false => simpa [runCat, hres] using List.mem_cons_of_mem item ih

/-! ### Claim theorems about the Reconciliation Driver -/

/-- C6: when a cancellation signal arrives at the item boundary after
exactly `k` of the catalog's items have been processed, the run returns
(totality of `find_missing_items` in this embedding) with a state whose
owned and missing lengths summed across categories equal `k`, and whose
classified items are exactly (as a multiset) the first `k` items of the
flattened catalog — every processed item classified, every unprocessed
item absent. -/
theorem cancel_keeps_processed (resolve : Nat → Outcome)
    (catalog : List (Str × List Str)) (k : Nat)
    (hk : k < catLen catalog)
    (hb : ∀ i, i < k → resolve i ≠ Outcome.cancel)
    (hcan : resolve k = Outcome.cancel) :
    sumCounts (find_missing_items resolve 0 catalog) = k ∧
      (flatClassified (find_missing_items resolve 0 catalog)).Perm
        ((flattenCat catalog).take k) := by
  have hp := driver_cancel_perm resolve catalog 0 k hk
    (fun i hi => by simpa using hb i hi) (by simpa using hcan)
  refine ⟨?_, hp⟩
  rw [sumCounts_eq_length, hp.length_eq, List.length_take]
  have hcl : catLen catalog = (flattenCat catalog).length := rfl
  omega

/-- Witness for C6: a five-item catalog over two categories, signal at
the fourth item; exactly three items are classified. -/
theorem cancel_keeps_processed_witness :
    sumCounts (find_missing_items resolveW6 0 catalogW6) = 3 ∧
      (flatClassified (find_missing_items resolveW6 0 catalogW6)).Perm
        ((flattenCat catalogW6).take 3) :=
  cancel_keeps_processed resolveW6 catalogW6 3 (by decide)
    (fun i hi => by simp [resolveW6, hi]) (by decide)

/-- C7: when the resolver of one catalog item raises an unexpected error
(and no cancellation occurs), the driver records that item in the missing
sequence of its category's entry and still processes every item of every
category; the run is total and ends with a complete state. -/
theorem resolver_error_recorded_missing (resolve : Nat → Outcome)
    (pre post : List (Str × List Str)) (cat : Str) (items : List Str) (p : Nat)
    (hp : p < items.length)
    (hnc : ∀ i, resolve i ≠ Outcome.cancel)
    (he : resolve (catLen pre + p) = Outcome.err) :
    (find_missing_items resolve 0 (pre ++ (cat, items) :: post)).length =
        pre.length + 1 + post.length ∧
      sumCounts (find_missing_items resolve 0 (pre ++ (cat, items) :: post)) =
        catLen (pre ++ (cat, items) :: post) ∧
      ∃ o m,
        (find_missing_items resolve 0 (pre ++ (cat, items) :: post)).get? pre.length =
          some (cat, o, m) ∧ items.get ⟨p, hp⟩ ∈ m := by
  refine ⟨?_, driver_counts resolve hnc _ 0, ?_⟩
  · rw [driver_length resolve hnc]
    simp [List.length_append]
    omega
  · rw [driver_append resolve hnc pre ((cat, items) :: post) 0]
    rw [driver_entry resolve hnc cat items post (0 + catLen pre)]
    refine ⟨(runCat resolve (0 + catLen pre) items).owned,
      (runCat resolve (0 + catLen pre) items).missing, ?_, ?_⟩
    · rw [List.get?_append_right (by rw [driver_length resolve hnc])]
      rw [driver_length resolve hnc]
      simp
    · have hmem := runCat_err_mem resolve items (0 + catLen pre) p hp
        (fun i _ => hnc _) (by simpa using he)
      exact hmem

/-- Witness for C7: a three-item catalog over two categories where the
global index 1 (item "B") errors; it lands in the missing list of its
category and the other two items are still classified. -/
theorem resolver_error_recorded_missing_witness :
    (find_missing_items resolveW7 0
        (catalogW7pre ++ (strL "UNIFORMS", catalogW7items) :: catalogW7post)).length =
        catalogW7pre.length + 1 + catalogW7post.length ∧
      sumCounts (find_missing_items resolveW7 0
        (catalogW7pre ++ (strL "UNIFORMS", catalogW7items) :: catalogW7post)) =
        catLen (catalogW7pre ++ (strL "UNIFORMS", catalogW7items) :: catalogW7post) ∧
      ∃ o m,
        (find_missing_items resolveW7 0
          (catalogW7pre ++ (strL "UNIFORMS", catalogW7items) :: catalogW7post)).get?
            catalogW7pre.length = some (strL "UNIFORMS", o, m) ∧
          catalogW7items.get ⟨0, by decide⟩ ∈ m :=
  resolver_error_recorded_missing resolveW7 catalogW7pre catalogW7post (strL "UNIFORMS")
    catalogW7items 0 (by decide)
    (fun i => by unfold resolveW7; split <;> simp) (by decide)

/-! ### Claim theorem about the Report Builder summary -/

/-- C8: the report's totals are the item counts of the catalog and of the
owned and missing buckets, and the completion percentage equals
`round(100 * totalOwned / totalCatalog, 2)`, defined as `0` when the
catalog is empty — no division fault: division is total in the rational
model, and the zero case is guarded.  Python float arithmetic is
modelled as exact rational arithmetic with round-half-even. -/
theorem report_summary_formula :
    ∀ celebration owned missing : List (Str × List Str),
      (generate_report celebration owned missing).total_celebration_items =
          totalLen celebration ∧
        (generate_report celebration owned missing).total_owned = totalLen owned ∧
        (generate_report celebration owned missing).total_missing = totalLen missing ∧
        (generate_report celebration owned missing).completion_percentage =
          specCompletion (totalLen owned) (totalLen celebration) ∧
        (generate_report [] [] []).completion_percentage = 0 := by
  intro celebration owned missing
  refine ⟨rfl, rfl, rfl, ?_, rfl⟩
  by_cases ht : totalLen celebration = 0
  · simp [generate_report, specCompletion, ht]
  · have hpos : 0 < totalLen celebration := Nat.pos_of_ne_zero ht
    unfold generate_report specCompletion
    rw [if_neg ht]
    simp only [if_pos hpos]
    exact congrArg round2 (by ring)

/-! ### Helper lemmas about grouping -/

/-- Membership in the first-seen key fold. -/
theorem keysFold_mem :
    ∀ (l acc : List Str) (x : Str),
      (x ∈ l.foldl (fun acc k => if k ∈ acc then acc else acc ++ [k]) acc) ↔
        x ∈ acc ∨ x ∈ l
  | [], acc, x => by simp
  | k :: l, acc, x => by
    by_cases hk : k ∈ acc
    · simp only [List.foldl_cons, if_pos hk]
      rw [keysFold_mem l acc x]
      constructor
      · rintro (h | h)
        exacts [Or.inl h, Or.inr (List.mem_cons_of_mem _ h)]
      · rintro (h | h)
        · exact Or.inl h
        · rcases List.mem_cons.mp h with rfl | h2
          exacts [Or.inl hk, Or.inr h2]
    · simp only [List.foldl_cons, if_neg hk]
      rw [keysFold_mem l (acc ++ [k]) x]
      simp only [List.mem_append, List.mem_cons, List.mem_singleton]
      tauto

/-- The first-seen key fold preserves freedom from duplicates. -/
theorem keysFold_nodup :
    ∀ (l acc : List Str), acc.Nodup →
      (l.foldl (fun acc k => if k ∈ acc then acc else acc ++ [k]) acc).Nodup
  | [], _, h => h
  | k :: l, acc, h => by
    by_cases hk : k ∈ acc
    · simp only [List.foldl_cons, if_pos hk]
      exact keysFold_nodup l acc h
    · simp only [List.foldl_cons, if_neg hk]
      refine keysFold_nodup l (acc ++ [k]) ?_
      simp [List.nodup_append, h, hk]

/-- The first-seen keys of an extended list: unchanged when the new base
name was seen, appended otherwise. -/
theorem specKeys_append_single (items : List Str) (v : Str) :
    specKeys (items ++ [v]) =
      (if baseName v ∈ specKeys items then specKeys items
       else specKeys items ++ [baseName v]) := by
  simp [specKeys, List.map_append, List.foldl_append]

/-- A base name is a first-seen key iff it is the base name of some
item. -/
theorem specKeys_mem (x : Str) (items : List Str) :
    x ∈ specKeys items ↔ x ∈ items.map baseName := by
  rw [specKeys, keysFold_mem]
  simp

/-- The first-seen keys are free of duplicates. -/
theorem specKeys_nodup (items : List Str) : (specKeys items).Nodup :=
  keysFold_nodup (items.map baseName) [] (by simp)

/-- Inserting a value into a keyed grouping presented as a map over a
duplicate-free key list: the matching entry is extended when the key is
present, a fresh entry is appended otherwise. -/
theorem addToGroup_map (f : Str → List Str) (key v : Str) :
    ∀ ks : List Str, ks.Nodup →
      addToGroup (ks.map (fun k => (k, f k))) key v =
        (if key ∈ ks then ks.map (fun k => (k, if k = key then f k ++ [v] else f k))
         else ks.map (fun k => (k, f k)) ++ [(key, [v])])
  | [], _ => by simp [addToGroup]
  | k :: ks, hnd => by
    rcases List.nodup_cons.mp hnd with ⟨hk, hnd2⟩
    by_cases hkey : k = key
    · subst hkey
      have hrest : ks.map (fun k2 => (k2, if k2 = k then f k2 ++ [v] else f k2)) =
          ks.map (fun k2 => (k2, f k2)) := by
        refine List.map_congr_left fun k2 hk2 => ?_
        have hne : k2 ≠ k := fun h => hk (h ▸ hk2)
        simp [hne]
      simp [addToGroup, hrest]
    · have hne2 : key ≠ k := fun h => hkey h.symm
      have ih := addToGroup_map f key v ks hnd2
      simp only [List.map_cons, addToGroup, if_neg hkey, ih]
      by_cases hin : key ∈ ks
      · have hmem : key ∈ k :: ks := List.mem_cons_of_mem _ hin
        rw [if_pos hin, if_pos hmem]
      · have hnotin : key ∉ k :: ks := by simp [List.mem_cons, hne2, hin]
        rw [if_neg hin, if_neg hnotin]
        simp

/-- Appending one item to the input of the source grouping inserts it
under its base name. -/
theorem group_append_single (p : List Str) (v : Str) :
    group_items_by_base_name (p ++ [v]) =
      addToGroup (group_items_by_base_name p) (baseName v) v := by
  simp [group_items_by_base_name, List.foldl_append]

/-! ### Claim theorem about grouping -/

/-- C9: the source grouping equals the spec grouping — for each base name
in first-seen order, the input-ordered sub-list of items sharing that
base name, where the base name of a name containing " - " is everything
before the last separator occurrence and any other name is its own base
name.  The concrete conjuncts check the last-occurrence rule and the
spec's worked example. -/
theorem grouping_characterization :
    (∀ items : List Str, group_items_by_base_name items = specGroup items) ∧
      baseName (strL "A - B - C") = strL "A - B" ∧
      baseName (strL "LONE WOLF") = strL "LONE WOLF" ∧
      group_items_by_base_name
          [strL "REDHAMMER STANDARD - HEADGEAR", strL "REDHAMMER STANDARD - UNIFORM",
            strL "LONE WOLF"] =
        [(strL "REDHAMMER STANDARD",
          [strL "REDHAMMER STANDARD - HEADGEAR", strL "REDHAMMER STANDARD - UNIFORM"]),
         (strL "LONE WOLF", [strL "LONE WOLF"])] := by
  refine ⟨?_, by decide, by decide, by decide⟩
  intro items
  induction items using List.reverseRecOn with
  | nil => rfl
  | append_singleton p v ih =>
    rw [group_append_single p v, ih]
    unfold specGroup
    rw [addToGroup_map (fun k => p.filter (fun it => baseName it == k)) (baseName v) v
      (specKeys p) (specKeys_nodup p)]
    rw [specKeys_append_single p v]
    by_cases hin : baseName v ∈ specKeys p
    · rw [if_pos hin, if_pos hin]
      refine List.map_congr_left fun k _ => ?_
      by_cases hk : k = baseName v
      · subst hk
        simp [List.filter_append]
      · have hbe : (baseName v == k) = false := by
          simp [beq_eq_false_iff_ne]
          exact fun h => hk h.symm
        simp [List.filter_append, hk, hbe]
    · rw [if_neg hin, if_neg hin]
      have hfirst : (specKeys p).map (fun k => (k, (p ++ [v]).filter (fun it => baseName it == k))) =
          (specKeys p).map (fun k => (k, p.filter (fun it => baseName it == k))) := by
        refine List.map_congr_left fun k hkmem => ?_
        have hne : k ≠ baseName v := fun h => hin (h ▸ hkmem)
        have hbe : (baseName v == k) = false := by
          simp [beq_eq_false_iff_ne]
          exact fun h => hne h.symm
        simp [List.filter_append, hbe]
      have hlast : (p ++ [v]).filter (fun it => baseName it == baseName v) = [v] := by
        have hnilp : p.filter (fun it => baseName it == baseName v) = [] := by
          rw [List.filter_eq_nil_iff]
          intro a ha h
          rw [beq_iff_eq] at h
          exact hin ((specKeys_mem (baseName v) p).mpr (h ▸ List.mem_map_of_mem baseName ha))
        simp [List.filter_append, hnilp]
      rw [List.map_append, hfirst]
      congr 1
      simp only [List.map_cons, List.map_nil]
      rw [hlast]
